import Mathlib

/-!
Verification development for the `binrepr` repository (source files
`binrepr/free.py` and `binrepr/fixed.py`).

Modelling conventions.
Bit strings are `List Bool`, most significant bit first, with `'1' ↦ true`.
Python `int` is `ℤ` (bit widths, which every claim takes nonnegative, are `ℕ`).
A Python `float` is modelled by `FloatVal`: NaN, a signed infinity, or a finite
value carried as an exact rational.  The arithmetic the source performs on
finite values (multiplying by `2` and by `0.5`, adding `0.5 ** k - 1`) is exact
on the IEEE doubles involved in the widths the claims exercise, so exact
rational arithmetic is a faithful model of those operations there.
The source signals errors with `ValueError`; the message
`"unsigned integer expected"` is `Err.signError` and `"not enough bits"` is
`Err.widthError`, the names used by the specification.
Each `while` loop is translated with an explicit fuel parameter; every call
site passes a fuel large enough that the loop reaches its exit condition
before the fuel does (proved in the lemmas below), so the fuel never changes
the computed value.
-/

/-- Error taxonomy of the specification (the source raises `ValueError` with
two distinct messages). -/
inductive Err where
  | signError
  | widthError
deriving DecidableEq

/-- Model of a Python float: NaN, signed infinity, or an exact finite value.
The negative zero `-0.0` compares equal to `0.0` in Python and is modelled as
`fin 0` (the sign test `f < 0` is false for `-0.0`, exactly as for `fin 0`). -/
inductive FloatVal where
  | nan
  | inf (neg : Bool)
  | fin (q : ℚ)
deriving DecidableEq

/-- Negation of a Python float: the negation of NaN is NaN, otherwise the
sign flips. -/
def FloatVal.fneg : FloatVal → FloatVal
  | .nan => .nan
  | .inf s => .inf (!s)
  | .fin q => .fin (-q)

namespace free

/-- Python `_fill_bits`: left-pad `b` with copies of `bit` up to length
`nBits`; `ValueError("not enough bits")` when `b` is already longer.  The
target length is an `ℤ` because one caller (`int2bin`) passes `n_bits - 1`,
which is negative in Python when `n_bits = 0`. -/
def fill_bits (b : List Bool) (nBits : ℤ) (bit : Bool) : Except Err (List Bool) :=
  let n : ℤ := nBits - b.length
  if n < 0 then .error .widthError
  else .ok (List.replicate n.toNat bit ++ b)

/-- Loop of Python `_dec2bin` (`while d > 0: prepend bit; d >>= 1`), with
fuel. -/
def dec2binAux : ℕ → ℕ → Bool → List Bool
  | 0, _, _ => []
  | fuel + 1, d, inv =>
    if d = 0 then []
    else dec2binAux fuel (d / 2) inv ++ [(decide (d % 2 = 1)).xor inv]

/-- Python `_dec2bin`: binary digits of `d`, most significant first, no
leading zeros, each bit inverted when `inv`.  The loop halves `d` until it is
zero, so `d` units of fuel are more than enough.  All call sites in the source
pass a nonnegative integer (Python's loop body never runs for `d ≤ 0`). -/
def dec2bin (d : ℕ) (inv : Bool) : List Bool := dec2binAux d d inv

/-- Python `_bin2dec`: skip the leading characters that differ from the bit
standing for one (`"0"` when `inv` else `"1"`), then walk the remainder in
reverse accumulating positional values. -/
def bin2dec (b : List Bool) (inv : Bool) : ℕ :=
  let one := !inv
  let rest := b.dropWhile (fun c => c != one)
  (rest.reverse.foldl
    (fun dp c => (if c = one then dp.1 + dp.2 else dp.1, 2 * dp.2))
    ((0 : ℕ), (1 : ℕ))).1

/-- Python `max_uint`. -/
def max_uint (nBits : ℕ) : ℤ := 2 ^ nBits - 1

/-- Python `max_int`. -/
def max_int (nBits : ℕ) : ℤ := max_uint (nBits - 1)

/-- Python `min_int`. -/
def min_int (nBits : ℕ) : ℤ := -max_uint (nBits - 1) - 1

/-- Loop of Python `n_exp_bits` (`while mem < n_bits`), with fuel.  State:
current reference width `mem`, exponent bit count `neb`, increment `inc` and
its counter `incInc`. -/
def nExpBitsLoop : ℕ → ℕ → ℕ → ℕ → ℕ → ℕ → ℕ
  | 0, _, _, neb, _, _ => neb
  | fuel + 1, nBits, mem, neb, inc, incInc =>
    if mem < nBits then
      if inc = incInc + 1 then
        nExpBitsLoop fuel nBits (2 * mem) (neb + inc) (inc + 1) 1
      else
        nExpBitsLoop fuel nBits (2 * mem) (neb + inc) inc (incInc + 1)
    else neb

/-- Python `n_exp_bits`: rejects widths below 8, then runs the doubling loop
from the reference point of 8 bits with 3 exponent bits.  The loop doubles
`mem` starting from 8 and stops as soon as `mem ≥ nBits`, so `nBits` units of
fuel are more than enough. -/
def n_exp_bits (nBits : ℕ) : Except Err ℕ :=
  if nBits < 8 then .error .widthError
  else .ok (nExpBitsLoop nBits nBits 8 3 2 1)

/-- Python `n_significand_bits` (`n_bits - n_exp_bits(n_bits)`). -/
def n_significand_bits (nBits : ℕ) : Except Err ℤ :=
  (n_exp_bits nBits).bind fun neb => .ok ((nBits : ℤ) - neb)

/-- Python `exp_bias` (`max_int(n_exp_bits(n_bits))`). -/
def exp_bias (nBits : ℕ) : Except Err ℤ :=
  (n_exp_bits nBits).bind fun neb => .ok (max_int neb)

/-- Python `max_exp`. -/
def max_exp (nBits : ℕ) : Except Err ℤ := exp_bias nBits

/-- Python `min_exp`. -/
def min_exp (nBits : ℕ) (subnorm : Bool) : Except Err ℤ :=
  (exp_bias nBits).bind fun b =>
  if subnorm then
    (n_significand_bits nBits).bind fun sig => .ok (-b + 1 - (sig - 1))
  else .ok (-b + 1)

/-- Python `max_float` (`(2**n - 1) * 2 ** (max_exp(n_bits) - n + 1)` with
`n = n_significand_bits(n_bits)`). -/
def max_float (nBits : ℕ) : Except Err ℚ :=
  (n_significand_bits nBits).bind fun sig =>
  (max_exp nBits).bind fun me =>
  .ok (((2 : ℚ) ^ sig - 1) * (2 : ℚ) ^ (me - sig + 1))

/-- Python `bool2bin`. -/
def bool2bin (b : Bool) (nBits : ℕ) : Except Err (List Bool) :=
  fill_bits [b] (nBits : ℤ) false

/-- Python `char2bin`, taking the code point `ord(c)` (so `c < 0x110000`). -/
def char2bin (c : ℕ) : Except Err (List Bool) :=
  fill_bits (dec2bin c false) (if c < 256 then (8 : ℤ) else 32) false

/-- Python `uint2bin`. -/
def uint2bin (i : ℤ) (nBits : ℕ) : Except Err (List Bool) :=
  if i < 0 then .error .signError
  else fill_bits (dec2bin i.toNat false) (nBits : ℤ) false

/-- Python `bin2uint`. -/
def bin2uint (b : List Bool) : ℕ := bin2dec b false

/-- Python `int2bin`: sign bit, then the magnitude (`-i - 1` with inverted
bits for a negative `i`) filled to `n_bits - 1` with the inversion bit. -/
def int2bin (i : ℤ) (nBits : ℕ) : Except Err (List Bool) :=
  let inv : Bool := decide (i < 0)
  let m : ℕ := if i < 0 then (-i - 1).toNat else i.toNat
  (fill_bits (dec2bin m inv) ((nBits : ℤ) - 1) inv).bind fun body =>
  .ok (inv :: body)

/-- Python `bin2int` (`b[0]` is modelled by `headD false`; every caller in the
claims passes a nonempty list, where the two coincide). -/
def bin2int (b : List Bool) : ℤ :=
  let inv : Bool := b.headD false
  let m : ℕ := bin2dec (b.drop 1) inv
  if inv then -(m : ℤ) - 1 else (m : ℤ)

/-- First normalization loop of `float2bin`
(`while f < 1: f *= 2; exponent -= 1`), with fuel. -/
def mul2Loop : ℕ → ℚ → ℤ → ℚ × ℤ
  | 0, f, e => (f, e)
  | fuel + 1, f, e => if f < 1 then mul2Loop fuel (f * 2) (e - 1) else (f, e)

/-- Second normalization loop of `float2bin`
(`while f >= 2: f *= 0.5; exponent += 1`), with fuel. -/
def half2Loop : ℕ → ℚ → ℤ → ℚ × ℤ
  | 0, f, e => (f, e)
  | fuel + 1, f, e => if 2 ≤ f then half2Loop fuel (f * (1 / 2)) (e + 1) else (f, e)

/-- The two normalization loops of `float2bin`, run in sequence as in the
source.  The fuels `f.den` and `f.num.natAbs` are proved sufficient below. -/
def normalizePair (f : ℚ) (e : ℤ) : ℚ × ℤ :=
  let p := mul2Loop f.den f e
  half2Loop p.1.num.natAbs p.1 p.2

/-- Mantissa extraction loop of `float2bin` (`for _ in range(precision)`):
double the remaining fraction, emit a bit, subtract the emitted one. -/
def extractBits : ℚ → ℕ → List Bool
  | _, 0 => []
  | f, k + 1 =>
    let f2 := f * 2
    if 1 ≤ f2 then true :: extractBits (f2 - 1) k
    else false :: extractBits f2 k

/-- Python `float2bin`.  The `inf` branch is the source's path for an infinite
input: the sign is taken, normalization is skipped, the working exponent is
set to `max_exponent`, and the saturation test then fires, so the saturated
pattern is returned directly.  In the finite branch the working exponent
starts at `max_exponent >> 1` (integer halving) and the loops, saturation
test, subnormal clamping, rounding constant and bit extraction follow the
source line by line. -/
def float2bin (x : FloatVal) (nBits : ℕ) : Except Err (List Bool) :=
  (n_exp_bits nBits).bind fun neb =>
  match x with
  | .nan => .ok (false :: List.replicate (nBits - 1) true)
  | .inf s =>
      .ok (s :: (List.replicate neb true ++
        List.replicate ((nBits : ℤ) - neb - 1).toNat false))
  | .fin q =>
      if q = 0 then .ok (List.replicate nBits false) else
      let nMant : ℤ := (nBits : ℤ) - neb - 1
      let s : Bool := decide (q < 0)
      let f0 : ℚ := if q < 0 then -q else q
      let maxExponent : ℤ := 2 ^ neb - 1
      let p := normalizePair f0 (maxExponent / 2)
      if maxExponent ≤ p.2 then
        .ok (s :: (List.replicate neb true ++ List.replicate nMant.toNat false))
      else
        let e2 : ℤ := if p.2 ≤ 0 then 0 else p.2
        let precision : ℤ := if p.2 ≤ 0 then nMant + p.2 - 1 else nMant
        let mant0 : List Bool :=
          if p.2 ≤ 0 ∧ 0 ≤ nMant + p.2 - 1 then [true] else []
        let f3 : ℚ := p.1 + (1 / 2 : ℚ) ^ (nMant + 1) - 1
        let mant := mant0 ++ extractBits f3 precision.toNat
        (fill_bits (dec2bin e2.toNat false) (neb : ℤ) false).bind fun eb =>
        (fill_bits mant nMant false).bind fun mb =>
        .ok (s :: (eb ++ mb))

/-- Python `bin2float`: split sign, exponent and mantissa fields, decode a
finite value when the exponent field has a zero, otherwise infinity or NaN by
the mantissa test; apply the sign last. -/
def bin2float (b : List Bool) : Except Err FloatVal :=
  (n_exp_bits b.length).bind fun neb =>
  let sign := b.headD false
  let expF := (b.drop 1).take neb
  let mant := b.drop (neb + 1)
  let f : FloatVal :=
    if false ∈ expF then
      let dec : ℕ := bin2dec expF false
      let pos0 : ℚ := (2 : ℚ) ^ ((dec : ℤ) + 1 - 2 ^ (neb - 1))
      let start : ℚ × ℚ := if 0 < dec then (pos0, pos0) else (0, pos0 * 2)
      let r := mant.foldl
        (fun fp bit => (fp.1 + if bit then fp.2 * (1 / 2) else 0, fp.2 * (1 / 2)))
        start
      .fin r.1
    else if true ∈ mant then .nan else .inf false
  .ok (if sign then f.fneg else f)

end free

/-- Big-endian binary expansion of a natural number on exactly `w` bits
(infrastructure used to state the values the codecs produce). -/
def natToBits : ℕ → ℕ → List Bool
  | _, 0 => []
  | d, w + 1 => natToBits (d / 2) w ++ [decide (d % 2 = 1)]

namespace fixed

/-- Modelled from the spec: the out-of-scope native collaborator
(`fixed._val2bin` for the signed integer formats) packs with the platform's
big-endian routine, which range-checks the value and emits its
two's-complement `w`-bit pattern byte-by-byte, each byte most significant bit
first — i.e. the `w`-bit big-endian expansion of `i mod 2^w`. -/
def val2bin_int (w : ℕ) (i : ℤ) : Option (List Bool) :=
  if -(2 ^ (w - 1) : ℤ) ≤ i ∧ i < 2 ^ (w - 1) then
    some (natToBits (i % (2 ^ w : ℤ)).toNat w)
  else none

/-- Modelled from the spec: `fixed._val2bin` for the unsigned integer
formats. -/
def val2bin_uint (w : ℕ) (i : ℤ) : Option (List Bool) :=
  if 0 ≤ i ∧ i < 2 ^ w then some (natToBits i.toNat w) else none

/-- Python `fixed.int2bin8`. -/
def int2bin8 (i : ℤ) : Option (List Bool) := val2bin_int 8 i

/-- Python `fixed.uint2bin8`. -/
def uint2bin8 (i : ℤ) : Option (List Bool) := val2bin_uint 8 i

/-- Python `fixed.int2bin16`. -/
def int2bin16 (i : ℤ) : Option (List Bool) := val2bin_int 16 i

/-- Python `fixed.uint2bin16`. -/
def uint2bin16 (i : ℤ) : Option (List Bool) := val2bin_uint 16 i

/-- Python `fixed.int2bin32`. -/
def int2bin32 (i : ℤ) : Option (List Bool) := val2bin_int 32 i

/-- Python `fixed.uint2bin32`. -/
def uint2bin32 (i : ℤ) : Option (List Bool) := val2bin_uint 32 i

/-- Python `fixed.int2bin64`. -/
def int2bin64 (i : ℤ) : Option (List Bool) := val2bin_int 64 i

/-- Python `fixed.uint2bin64`. -/
def uint2bin64 (i : ℤ) : Option (List Bool) := val2bin_uint 64 i

/-- Modelled from the spec: `fixed.float2bin64` packs a Python float with the
platform's native big-endian binary64 routine.  CPython packs NaN as the
canonical quiet NaN `0x7ff8000000000000` (sign 0, exponent all ones, leading
mantissa bit set, rest zero); infinities as sign, exponent all ones, mantissa
zero; a finite value maps to its IEEE-754 binary64 pattern, given here for the
exactly representable normal range (for other finite values the platform
rounds; that behavior is outside what the repository specifies, and no claim
below depends on it). -/
def float2bin64 (x : FloatVal) : Option (List Bool) :=
  match x with
  | .nan =>
      some (false :: (List.replicate 11 true ++ (true :: List.replicate 51 false)))
  | .inf s => some (s :: (List.replicate 11 true ++ List.replicate 52 false))
  | .fin q =>
      if q = 0 then some (List.replicate 64 false) else
      let s : Bool := decide (q < 0)
      let p := free.normalizePair |q| 0
      let frac := (p.1 - 1) * 2 ^ 52
      if -1022 ≤ p.2 ∧ p.2 ≤ 1023 ∧ frac.den = 1 then
        some (s :: (natToBits (p.2 + 1023).toNat 11 ++ natToBits frac.num.toNat 52))
      else none

end fixed

/-- Most-significant-bit-first value of a bit list, with `one` naming the bit
that stands for 1 (infrastructure for reasoning about `free.bin2dec`). -/
def msbVal (b : List Bool) (one : Bool) : ℕ :=
  b.foldl (fun a c => 2 * a + if c = one then 1 else 0) 0

instance {ε α : Type} [DecidableEq ε] [DecidableEq α] : DecidableEq (Except ε α) :=
  fun a b =>
  match a, b with
  | .ok x, .ok y =>
      if h : x = y then isTrue (by rw [h])
      else isFalse (fun hh => by cases hh; exact h rfl)
  | .error x, .error y =>
      if h : x = y then isTrue (by rw [h])
      else isFalse (fun hh => by cases hh; exact h rfl)
  | .ok _, .error _ => isFalse (fun hh => by cases hh)
  | .error _, .ok _ => isFalse (fun hh => by cases hh)

/-!
Lemmas.  First the machinery for bit-list values: `free.bin2dec` is the
most-significant-bit-first value `msbVal`, `free.dec2bin` inverts it, and
padding on the left with the bit that stands for zero does not change it.
-/

theorem msbVal_foldl_shift (l : List Bool) (one : Bool) (a : ℕ) :
    l.foldl (fun a c => 2 * a + if c = one then 1 else 0) a
      = a * 2 ^ l.length + msbVal l one := by
  induction l generalizing a with
  | nil => simp [msbVal]
  | cons c t ih =>
    simp only [List.foldl_cons, msbVal, List.length_cons]
    rw [ih, ih (2 * 0 + if c = one then 1 else 0)]
    ring

theorem msbVal_cons (c : Bool) (t : List Bool) (one : Bool) :
    msbVal (c :: t) one = (if c = one then 1 else 0) * 2 ^ t.length + msbVal t one := by
  simp only [msbVal, List.foldl_cons]
  rw [msbVal_foldl_shift]
  simp [msbVal]

theorem msbVal_append (l₁ l₂ : List Bool) (one : Bool) :
    msbVal (l₁ ++ l₂) one = msbVal l₁ one * 2 ^ l₂.length + msbVal l₂ one := by
  simp only [msbVal, List.foldl_append]
  rw [msbVal_foldl_shift]
  rfl

theorem msbVal_append_single (l : List Bool) (c one : Bool) :
    msbVal (l ++ [c]) one = 2 * msbVal l one + (if c = one then 1 else 0) := by
  rw [msbVal_append]
  simp only [List.length_singleton, pow_one, msbVal, List.foldl_cons, List.foldl_nil]
  omega

theorem msbVal_replicate_pad (k : ℕ) (pad one : Bool) (h : pad ≠ one) (l : List Bool) :
    msbVal (List.replicate k pad ++ l) one = msbVal l one := by
  induction k with
  | zero => simp
  | succ n ih =>
    rw [List.replicate_succ, List.cons_append, msbVal_cons]
    simp [h, ih]

theorem bin2dec_rev_fold (l : List Bool) (one : Bool) :
    l.reverse.foldl
      (fun dp c => (if c = one then dp.1 + dp.2 else dp.1, 2 * dp.2))
      ((0 : ℕ), (1 : ℕ)) = (msbVal l one, 2 ^ l.length) := by
  induction l with
  | nil => simp [msbVal]
  | cons c t ih =>
    rw [List.reverse_cons, List.foldl_append, ih]
    simp only [List.foldl_cons, List.foldl_nil, msbVal_cons, List.length_cons,
      Prod.mk.injEq]
    refine ⟨?_, ?_⟩
    · by_cases h : c = one <;> simp [h] <;> omega
    · rw [pow_succ]; ring

theorem msbVal_dropWhile (b : List Bool) (one : Bool) :
    msbVal (b.dropWhile (fun c => c != one)) one = msbVal b one := by
  induction b with
  | nil => rfl
  | cons c t ih =>
    by_cases h : c = one
    · simp [List.dropWhile_cons, h]
    · rw [List.dropWhile_cons]
      have hc : (c != one) = true := by simp [h]
      rw [hc]
      simp only [if_true]
      rw [ih, msbVal_cons]
      simp [h]

theorem bin2dec_eq_msbVal (b : List Bool) (inv : Bool) :
    free.bin2dec b inv = msbVal b (!inv) := by
  show ((b.dropWhile (fun c => c != !inv)).reverse.foldl
      (fun dp c => (if c = !inv then dp.1 + dp.2 else dp.1, 2 * dp.2))
      ((0 : ℕ), (1 : ℕ))).1 = msbVal b (!inv)
  rw [bin2dec_rev_fold]
  exact msbVal_dropWhile b (!inv)

/-! Lemmas about `free.dec2bin`: fuel irrelevance, value, length, inversion. -/

theorem dec2binAux_d_zero (fuel : ℕ) (inv : Bool) : free.dec2binAux fuel 0 inv = [] := by
  cases fuel <;> simp [free.dec2binAux]

theorem dec2binAux_fuel_irrel :
    ∀ fuel fuel' d inv, d ≤ fuel → d ≤ fuel' →
      free.dec2binAux fuel d inv = free.dec2binAux fuel' d inv := by
  intro fuel
  induction fuel with
  | zero =>
    intro fuel' d inv hd _
    interval_cases d
    rw [dec2binAux_d_zero, dec2binAux_d_zero]
  | succ n ih =>
    intro fuel' d inv hd hd'
    by_cases h0 : d = 0
    · subst h0; rw [dec2binAux_d_zero, dec2binAux_d_zero]
    · cases fuel' with
      | zero => omega
      | succ n' =>
        simp only [free.dec2binAux, h0, if_false]
        rw [ih n' (d / 2) inv (by omega) (by omega)]

theorem dec2bin_step (d : ℕ) (inv : Bool) (h : d ≠ 0) :
    free.dec2bin d inv
      = free.dec2bin (d / 2) inv ++ [(decide (d % 2 = 1)).xor inv] := by
  unfold free.dec2bin
  cases d with
  | zero => omega
  | succ n =>
    simp only [free.dec2binAux, h, if_false]
    rw [dec2binAux_fuel_irrel n ((n + 1) / 2) ((n + 1) / 2) inv (by omega) (by omega)]

theorem dec2bin_zero (inv : Bool) : free.dec2bin 0 inv = [] := rfl

theorem dec2bin_msbVal (d : ℕ) (inv : Bool) : msbVal (free.dec2bin d inv) (!inv) = d := by
  induction d using Nat.strong_induction_on with
  | _ d ih =>
    by_cases h0 : d = 0
    · subst h0; rfl
    · rw [dec2bin_step d inv h0, msbVal_append_single, ih (d / 2) (by omega)]
      rcases Nat.mod_two_eq_zero_or_one d with h2 | h2 <;> cases inv <;>
        simp [h2] <;> omega

theorem dec2bin_length_iff (d : ℕ) (inv : Bool) (w : ℕ) :
    (free.dec2bin d inv).length ≤ w ↔ d < 2 ^ w := by
  induction d using Nat.strong_induction_on generalizing w with
  | _ d ih =>
    by_cases h0 : d = 0
    · subst h0
      simp [dec2bin_zero, Nat.pos_pow_of_pos]
    · rw [dec2bin_step d inv h0]
      cases w with
      | zero =>
        simp only [List.length_append, List.length_singleton, pow_zero]
        omega
      | succ v =>
        rw [List.length_append, List.length_singleton]
        have hv := ih (d / 2) (by omega) v
        have h2 : d / 2 < 2 ^ v ↔ d < 2 ^ (v + 1) := by
          rw [pow_succ]
          omega
        omega

theorem dec2bin_not (d : ℕ) : free.dec2bin d true = (free.dec2bin d false).map not := by
  induction d using Nat.strong_induction_on with
  | _ d ih =>
    by_cases h0 : d = 0
    · subst h0; rfl
    · rw [dec2bin_step d true h0, dec2bin_step d false h0, List.map_append,
        ih (d / 2) (by omega)]
      simp

theorem dec2bin_length_not (d : ℕ) :
    (free.dec2bin d true).length = (free.dec2bin d false).length := by
  rw [dec2bin_not, List.length_map]

/-! Lemmas about `free.fill_bits` and `natToBits`. -/

theorem fill_bits_eq_ok (b : List Bool) (n : ℤ) (bit : Bool)
    (h : (b.length : ℤ) ≤ n) :
    free.fill_bits b n bit = .ok (List.replicate (n - b.length).toNat bit ++ b) := by
  unfold free.fill_bits
  rw [if_neg (by omega)]

theorem fill_bits_eq_error (b : List Bool) (n : ℤ) (bit : Bool)
    (h : n < b.length) : free.fill_bits b n bit = .error .widthError := by
  unfold free.fill_bits
  rw [if_pos (by omega)]

theorem fill_bits_ok_length (b : List Bool) (n : ℤ) (bit : Bool) (r : List Bool)
    (h : free.fill_bits b n bit = .ok r) : (r.length : ℤ) = max n b.length := by
  unfold free.fill_bits at h
  by_cases hn : n - (b.length : ℤ) < 0
  · rw [if_pos hn] at h
    cases h
  · rw [if_neg hn] at h
    cases h
    simp only [List.length_append, List.length_replicate]
    omega

theorem fill_bits_error_iff (b : List Bool) (n : ℤ) (bit : Bool) (e : Err) :
    free.fill_bits b n bit = .error e ↔ n < b.length ∧ e = .widthError := by
  unfold free.fill_bits
  by_cases hn : n - (b.length : ℤ) < 0
  · rw [if_pos hn]
    constructor
    · intro h; cases h; exact ⟨by omega, rfl⟩
    · rintro ⟨-, rfl⟩; rfl
  · rw [if_neg hn]
    constructor
    · intro h; cases h
    · intro h; omega

theorem natToBits_length (d w : ℕ) : (natToBits d w).length = w := by
  induction w generalizing d with
  | zero => rfl
  | succ v ih => simp [natToBits, ih]

theorem natToBits_zero (w : ℕ) : natToBits 0 w = List.replicate w false := by
  induction w with
  | zero => rfl
  | succ v ih =>
    rw [List.replicate_succ']
    simp [natToBits, ih]

theorem msbVal_natToBits (w : ℕ) :
    ∀ d, d < 2 ^ w → msbVal (natToBits d w) true = d := by
  induction w with
  | zero =>
    intro d hd
    interval_cases d
    rfl
  | succ v ih =>
    intro d hd
    have hdiv : d / 2 < 2 ^ v := by
      have : (2 : ℕ) ^ (v + 1) = 2 ^ v * 2 := pow_succ 2 v
      omega
    rw [natToBits, msbVal_append_single, ih (d / 2) hdiv]
    rcases Nat.mod_two_eq_zero_or_one d with h2 | h2 <;> simp [h2] <;> omega

theorem replicate_dec2bin (w : ℕ) :
    ∀ d, d < 2 ^ w →
      List.replicate (w - (free.dec2bin d false).length) false ++ free.dec2bin d false
        = natToBits d w := by
  induction w with
  | zero =>
    intro d hd
    interval_cases d
    rfl
  | succ v ih =>
    intro d hd
    by_cases h0 : d = 0
    · subst h0
      rw [dec2bin_zero]
      simp [natToBits_zero]
    · have hdiv : d / 2 < 2 ^ v := by
        have : (2 : ℕ) ^ (v + 1) = 2 ^ v * 2 := pow_succ 2 v
        omega
      have hstep := dec2bin_step d false h0
      have hlen : (free.dec2bin d false).length
          = (free.dec2bin (d / 2) false).length + 1 := by
        rw [hstep]; simp
      rw [hlen, hstep, natToBits, ← ih (d / 2) hdiv]
      rw [show v + 1 - ((free.dec2bin (d / 2) false).length + 1)
          = v - (free.dec2bin (d / 2) false).length from by omega]
      simp [List.append_assoc]

theorem natToBits_not (w : ℕ) :
    ∀ d, d < 2 ^ w → (natToBits d w).map not = natToBits (2 ^ w - 1 - d) w := by
  induction w with
  | zero => intro d hd; rfl
  | succ v ih =>
    intro d hd
    have hp : (2 : ℕ) ^ (v + 1) = 2 ^ v * 2 := pow_succ 2 v
    have hdiv : d / 2 < 2 ^ v := by omega
    have hpos : 1 ≤ 2 ^ v := Nat.one_le_two_pow
    rw [natToBits, List.map_append, ih (d / 2) hdiv]
    have hq : (2 ^ (v + 1) - 1 - d) / 2 = 2 ^ v - 1 - d / 2 := by omega
    rw [natToBits, hq]
    rcases Nat.mod_two_eq_zero_or_one d with h2 | h2 <;>
      · have hm : (2 ^ (v + 1) - 1 - d) % 2 = 1 - d % 2 := by omega
        simp [hm, h2]

theorem natToBits_cons_false (w : ℕ) :
    ∀ d, d < 2 ^ w → natToBits d (w + 1) = false :: natToBits d w := by
  induction w with
  | zero =>
    intro d hd
    interval_cases d
    rfl
  | succ v ih =>
    intro d hd
    have hp : (2 : ℕ) ^ (v + 1) = 2 ^ v * 2 := pow_succ 2 v
    have hdiv : d / 2 < 2 ^ v := by omega
    rw [show natToBits d (v + 1 + 1)
        = natToBits (d / 2) (v + 1) ++ [decide (d % 2 = 1)] from rfl]
    rw [ih (d / 2) hdiv]
    rfl

theorem natToBits_cons_true (w : ℕ) :
    ∀ d, d < 2 ^ w → natToBits (2 ^ w + d) (w + 1) = true :: natToBits d w := by
  induction w with
  | zero =>
    intro d hd
    interval_cases d
    rfl
  | succ v ih =>
    intro d hd
    have hp : (2 : ℕ) ^ (v + 1) = 2 ^ v * 2 := pow_succ 2 v
    have hdiv : d / 2 < 2 ^ v := by omega
    rw [show natToBits (2 ^ (v + 1) + d) (v + 1 + 1)
        = natToBits ((2 ^ (v + 1) + d) / 2) (v + 1) ++ [decide ((2 ^ (v + 1) + d) % 2 = 1)]
        from rfl]
    have hq : (2 ^ (v + 1) + d) / 2 = 2 ^ v + d / 2 := by omega
    have hm : (2 ^ (v + 1) + d) % 2 = d % 2 := by omega
    rw [hq, hm, ih (d / 2) hdiv]
    rfl

/-! Characterization of the integer codecs. -/

theorem two_pow_cast (w : ℕ) : ((2 ^ w : ℕ) : ℤ) = 2 ^ w := by push_cast; ring

theorem uint2bin_ok_fill (i : ℤ) (w : ℕ) (h0 : 0 ≤ i) (h1 : i < 2 ^ w) :
    free.uint2bin i w
      = .ok (List.replicate (w - (free.dec2bin i.toNat false).length) false
          ++ free.dec2bin i.toNat false) := by
  have hpc := two_pow_cast w
  have hlt : i.toNat < 2 ^ w := by omega
  have hlen : (free.dec2bin i.toNat false).length ≤ w := by
    rw [dec2bin_length_iff]; exact hlt
  unfold free.uint2bin
  rw [if_neg (by omega), fill_bits_eq_ok _ _ _ (by exact_mod_cast hlen)]
  rw [show ((w : ℤ) - (free.dec2bin i.toNat false).length).toNat
      = w - (free.dec2bin i.toNat false).length from by omega]

theorem uint2bin_ok_natToBits (i : ℤ) (w : ℕ) (h0 : 0 ≤ i) (h1 : i < 2 ^ w) :
    free.uint2bin i w = .ok (natToBits i.toNat w) := by
  have hpc := two_pow_cast w
  rw [uint2bin_ok_fill i w h0 h1, replicate_dec2bin w i.toNat (by omega)]

theorem uint2bin_signError_iff (i : ℤ) (w : ℕ) :
    free.uint2bin i w = .error .signError ↔ i < 0 := by
  unfold free.uint2bin
  by_cases h : i < 0
  · rw [if_pos h]
    simp [h]
  · rw [if_neg h]
    simp only [fill_bits_error_iff, h, iff_false]
    rintro ⟨-, hc⟩
    cases hc

theorem uint2bin_widthError_iff (i : ℤ) (w : ℕ) :
    free.uint2bin i w = .error .widthError ↔ 0 ≤ i ∧ (2 : ℤ) ^ w ≤ i := by
  have hpc := two_pow_cast w
  unfold free.uint2bin
  by_cases h : i < 0
  · rw [if_pos h]
    constructor
    · intro hc; cases hc
    · intro hc; omega
  · rw [if_neg h, fill_bits_error_iff]
    have hiff := dec2bin_length_iff i.toNat false w
    constructor
    · rintro ⟨hlen, -⟩
      refine ⟨by omega, ?_⟩
      by_contra hc
      have h2 : i.toNat < 2 ^ w := by omega
      have := hiff.2 h2
      omega
    · rintro ⟨-, hge⟩
      refine ⟨?_, rfl⟩
      by_contra hc
      have hlen : (free.dec2bin i.toNat false).length ≤ w := by omega
      have := hiff.1 hlen
      omega

theorem bin2uint_natToBits (d w : ℕ) (h : d < 2 ^ w) :
    free.bin2uint (natToBits d w) = d := by
  unfold free.bin2uint
  rw [bin2dec_eq_msbVal]
  exact msbVal_natToBits w d h

/-- Value of the signed encoder on in-range input, in the raw
pad-plus-digits form produced by the source. -/
theorem int2bin_ok_fill (i : ℤ) (w : ℕ) (hw : 1 ≤ w)
    (hlo : -(2 ^ (w - 1) : ℤ) ≤ i) (hhi : i < 2 ^ (w - 1)) :
    free.int2bin i w
      = .ok (decide (i < 0) ::
          (List.replicate ((w - 1) - (free.dec2bin (if i < 0 then (-i - 1).toNat else i.toNat)
              (decide (i < 0))).length) (decide (i < 0))
            ++ free.dec2bin (if i < 0 then (-i - 1).toNat else i.toNat) (decide (i < 0)))) := by
  have hpc := two_pow_cast (w - 1)
  have hm : (if i < 0 then (-i - 1).toNat else i.toNat) < 2 ^ (w - 1) := by
    split <;> omega
  have hlenf : (free.dec2bin (if i < 0 then (-i - 1).toNat else i.toNat) false).length
      ≤ w - 1 := by
    rw [dec2bin_length_iff]; exact hm
  have hlen : (free.dec2bin (if i < 0 then (-i - 1).toNat else i.toNat)
      (decide (i < 0))).length ≤ w - 1 := by
    by_cases h : i < 0
    · rw [decide_eq_true h, dec2bin_length_not]
      exact hlenf
    · rw [decide_eq_false h]
      exact hlenf
  have hstep : free.int2bin i w
      = (free.fill_bits (free.dec2bin (if i < 0 then (-i - 1).toNat else i.toNat)
          (decide (i < 0))) ((w : ℤ) - 1) (decide (i < 0))).bind fun body =>
        Except.ok (decide (i < 0) :: body) := rfl
  rw [hstep, fill_bits_eq_ok _ _ _ (by push_cast; omega)]
  simp only [Except.bind]
  rw [show ((w : ℤ) - 1 - (free.dec2bin (if i < 0 then (-i - 1).toNat else i.toNat)
        (decide (i < 0))).length).toNat
      = (w - 1) - (free.dec2bin (if i < 0 then (-i - 1).toNat else i.toNat)
        (decide (i < 0))).length from by omega]

theorem int2bin_ok_natToBits (i : ℤ) (w : ℕ) (hw : 1 ≤ w)
    (hlo : -(2 ^ (w - 1) : ℤ) ≤ i) (hhi : i < 2 ^ (w - 1)) :
    free.int2bin i w = .ok (natToBits (i % (2 ^ w : ℤ)).toNat w) := by
  have hpc := two_pow_cast (w - 1)
  have hpcw := two_pow_cast w
  have hsplit : (2 : ℕ) ^ w = 2 ^ (w - 1) + 2 ^ (w - 1) := by
    calc (2 : ℕ) ^ w = 2 ^ (w - 1 + 1) := by rw [show w - 1 + 1 = w from by omega]
    _ = 2 ^ (w - 1) * 2 := pow_succ 2 (w - 1)
    _ = 2 ^ (w - 1) + 2 ^ (w - 1) := by ring
  rw [int2bin_ok_fill i w hw hlo hhi]
  by_cases h : i < 0
  · have hd : (-i - 1).toNat < 2 ^ (w - 1) := by omega
    have hmod : i % ((2 : ℤ) ^ w) = i + 2 ^ w := by
      have h3 : i + 2 ^ w < 2 ^ w := by omega
      have h2 : (0 : ℤ) ≤ i + 2 ^ w := by
        have : ((2 : ℤ) ^ w) = ((2 ^ w : ℕ) : ℤ) := hpcw.symm
        rw [this]
        omega
      have hself := Int.add_mul_emod_self_left (a := i + 2 ^ w) (b := (2 : ℤ) ^ w) (c := -1)
      rw [show i + 2 ^ w + 2 ^ w * -1 = i from by ring] at hself
      rw [hself, Int.emod_eq_of_lt h2 h3]
    rw [decide_eq_true h, if_pos h]
    rw [show List.replicate ((w - 1) - (free.dec2bin (-i - 1).toNat true).length) true
          ++ free.dec2bin (-i - 1).toNat true
        = ((List.replicate ((w - 1) - (free.dec2bin (-i - 1).toNat false).length) false
          ++ free.dec2bin (-i - 1).toNat false).map not) from by
      rw [List.map_append, List.map_replicate, dec2bin_not]
      simp]
    rw [replicate_dec2bin (w - 1) (-i - 1).toNat hd]
    rw [natToBits_not (w - 1) (-i - 1).toNat hd]
    have hd2 : 2 ^ (w - 1) - 1 - (-i - 1).toNat < 2 ^ (w - 1) := by
      have := Nat.one_le_two_pow (n := w - 1)
      omega
    rw [← natToBits_cons_true (w - 1) _ hd2]
    have harg : 2 ^ (w - 1) + (2 ^ (w - 1) - 1 - (-i - 1).toNat)
        = (i % ((2 : ℤ) ^ w)).toNat := by
      rw [hmod]
      have : ((2 : ℤ) ^ w) = ((2 ^ w : ℕ) : ℤ) := hpcw.symm
      rw [this]
      omega
    rw [harg, show (w - 1) + 1 = w from by omega]
  · have hd : i.toNat < 2 ^ (w - 1) := by omega
    have hmod : i % ((2 : ℤ) ^ w) = i := by
      refine Int.emod_eq_of_lt (by omega) ?_
      have : ((2 : ℤ) ^ w) = ((2 ^ w : ℕ) : ℤ) := hpcw.symm
      rw [this]
      omega
    rw [decide_eq_false h, if_neg h]
    rw [replicate_dec2bin (w - 1) i.toNat hd]
    rw [← natToBits_cons_false (w - 1) i.toNat hd]
    rw [hmod, show (w - 1) + 1 = w from by omega]

theorem int2bin_widthError (i : ℤ) (w : ℕ) (hw : 1 ≤ w)
    (h : i < -(2 ^ (w - 1) : ℤ) ∨ (2 ^ (w - 1) : ℤ) ≤ i) :
    free.int2bin i w = .error .widthError := by
  have hpc := two_pow_cast (w - 1)
  have hpos : (0 : ℤ) < 2 ^ (w - 1) := by positivity
  have hm : ¬ ((if i < 0 then (-i - 1).toNat else i.toNat) < 2 ^ (w - 1)) := by
    rcases h with h | h
    · rw [if_pos (by omega)]
      omega
    · rw [if_neg (by omega)]
      omega
  have hlenf : ¬ ((free.dec2bin (if i < 0 then (-i - 1).toNat else i.toNat) false).length
      ≤ w - 1) := fun hc => hm ((dec2bin_length_iff _ false (w - 1)).1 hc)
  have hlen : ¬ ((free.dec2bin (if i < 0 then (-i - 1).toNat else i.toNat)
      (decide (i < 0))).length ≤ w - 1) := by
    by_cases hneg : i < 0
    · rw [decide_eq_true hneg, dec2bin_length_not]
      exact hlenf
    · rw [decide_eq_false hneg]
      exact hlenf
  have hstep : free.int2bin i w
      = (free.fill_bits (free.dec2bin (if i < 0 then (-i - 1).toNat else i.toNat)
          (decide (i < 0))) ((w : ℤ) - 1) (decide (i < 0))).bind fun body =>
        Except.ok (decide (i < 0) :: body) := rfl
  rw [hstep, fill_bits_eq_error _ _ _ (by push_cast; omega)]
  rfl

theorem bin2int_of_int2bin (i : ℤ) (w : ℕ) (hw : 1 ≤ w)
    (hlo : -(2 ^ (w - 1) : ℤ) ≤ i) (hhi : i < 2 ^ (w - 1)) (b : List Bool)
    (hb : free.int2bin i w = .ok b) : free.bin2int b = i := by
  rw [int2bin_ok_fill i w hw hlo hhi] at hb
  cases hb
  have hpc := two_pow_cast (w - 1)
  unfold free.bin2int
  simp only [List.headD_cons, List.drop_one, List.tail_cons]
  rw [bin2dec_eq_msbVal]
  by_cases h : i < 0
  · rw [decide_eq_true h, if_pos h]
    rw [msbVal_replicate_pad _ _ _ (by simp) _, dec2bin_msbVal]
    simp only [if_true]
    omega
  · rw [decide_eq_false h, if_neg h]
    rw [msbVal_replicate_pad _ _ _ (by simp) _, dec2bin_msbVal]
    simp only [Bool.false_eq_true, if_false]
    omega

/-! Bounds on the exponent-width loop: the result is at least 3 and leaves at
least two bits (sign and one mantissa bit) at every width the loop accepts. -/

theorem nExpBitsLoop_bounds :
    ∀ fuel nBits mem neb inc incInc, 3 ≤ neb → 2 * neb + 2 ≤ mem →
      2 * inc ≤ mem → mem ≤ 2 * nBits - 2 → 8 ≤ nBits →
      3 ≤ free.nExpBitsLoop fuel nBits mem neb inc incInc ∧
        free.nExpBitsLoop fuel nBits mem neb inc incInc + 2 ≤ nBits := by
  intro fuel
  induction fuel with
  | zero =>
    intro nBits mem neb inc incInc h3 hneb hinc hmem hn
    simp only [free.nExpBitsLoop]
    exact ⟨h3, by omega⟩
  | succ n ih =>
    intro nBits mem neb inc incInc h3 hneb hinc hmem hn
    simp only [free.nExpBitsLoop]
    by_cases hlt : mem < nBits
    · rw [if_pos hlt]
      by_cases heq : inc = incInc + 1
      · rw [if_pos heq]
        exact ih nBits (2 * mem) (neb + inc) (inc + 1) 1
          (by omega) (by omega) (by omega) (by omega) hn
      · rw [if_neg heq]
        exact ih nBits (2 * mem) (neb + inc) inc (incInc + 1)
          (by omega) (by omega) (by omega) (by omega) hn
    · rw [if_neg hlt]
      exact ⟨h3, by omega⟩

theorem n_exp_bits_ok_bounds (n neb : ℕ) (h : free.n_exp_bits n = .ok neb) :
    8 ≤ n ∧ 3 ≤ neb ∧ neb + 2 ≤ n := by
  unfold free.n_exp_bits at h
  by_cases hn : n < 8
  · rw [if_pos hn] at h
    cases h
  · rw [if_neg hn] at h
    cases h
    have := nExpBitsLoop_bounds n n 8 3 2 1 (by omega) (by omega) (by omega)
      (by omega) (by omega)
    omega

theorem n_exp_bits_error (n : ℕ) (h : n < 8) :
    free.n_exp_bits n = .error .widthError := by
  unfold free.n_exp_bits
  rw [if_pos h]

/-! The normalization loops: each preserves the invariant `f * 2 ^ e` and,
given the fuel the call sites pass, ends with `f` in `[1, 2)`. -/

theorem mul2Loop_invariant :
    ∀ fuel (f : ℚ) (e : ℤ),
      (free.mul2Loop fuel f e).1 * 2 ^ (free.mul2Loop fuel f e).2 = f * 2 ^ e := by
  intro fuel
  induction fuel with
  | zero => intro f e; rfl
  | succ n ih =>
    intro f e
    simp only [free.mul2Loop]
    by_cases h : f < 1
    · rw [if_pos h, ih]
      rw [zpow_sub_one₀ (by norm_num : (2 : ℚ) ≠ 0)]
      ring
    · rw [if_neg h]

theorem mul2Loop_pos :
    ∀ fuel (f : ℚ) (e : ℤ), 0 < f → 0 < (free.mul2Loop fuel f e).1 := by
  intro fuel
  induction fuel with
  | zero => intro f e hf; exact hf
  | succ n ih =>
    intro f e hf
    simp only [free.mul2Loop]
    by_cases h : f < 1
    · rw [if_pos h]; exact ih (f * 2) (e - 1) (by positivity)
    · rw [if_neg h]; exact hf

theorem mul2Loop_norm :
    ∀ fuel (f : ℚ) (e : ℤ), 0 < f → 1 ≤ 2 ^ fuel * f →
      1 ≤ (free.mul2Loop fuel f e).1 ∧
        ((free.mul2Loop fuel f e).1 < 2 ∨ (free.mul2Loop fuel f e).1 = f) := by
  intro fuel
  induction fuel with
  | zero =>
    intro f e hf hfuel
    rw [pow_zero, one_mul] at hfuel
    exact ⟨hfuel, Or.inr rfl⟩
  | succ n ih =>
    intro f e hf hfuel
    simp only [free.mul2Loop]
    by_cases h : f < 1
    · rw [if_pos h]
      have hfuel2 : 1 ≤ 2 ^ n * (f * 2) := by
        rw [pow_succ] at hfuel
        calc (1 : ℚ) ≤ 2 ^ n * 2 * f := hfuel
        _ = 2 ^ n * (f * 2) := by ring
      obtain ⟨h1, h2⟩ := ih (f * 2) (e - 1) (by positivity) hfuel2
      refine ⟨h1, Or.inl ?_⟩
      rcases h2 with h2 | h2
      · exact h2
      · rw [h2]; linarith
    · rw [if_neg h]
      exact ⟨by linarith, Or.inr rfl⟩

theorem half2Loop_invariant :
    ∀ fuel (f : ℚ) (e : ℤ),
      (free.half2Loop fuel f e).1 * 2 ^ (free.half2Loop fuel f e).2 = f * 2 ^ e := by
  intro fuel
  induction fuel with
  | zero => intro f e; rfl
  | succ n ih =>
    intro f e
    simp only [free.half2Loop]
    by_cases h : 2 ≤ f
    · rw [if_pos h, ih]
      rw [zpow_add_one₀ (by norm_num : (2 : ℚ) ≠ 0)]
      ring
    · rw [if_neg h]

theorem half2Loop_norm :
    ∀ fuel (f : ℚ) (e : ℤ), 1 ≤ f → f < 2 * 2 ^ fuel →
      1 ≤ (free.half2Loop fuel f e).1 ∧ (free.half2Loop fuel f e).1 < 2 := by
  intro fuel
  induction fuel with
  | zero =>
    intro f e h1 h2
    rw [pow_zero, mul_one] at h2
    exact ⟨h1, h2⟩
  | succ n ih =>
    intro f e h1 h2
    simp only [free.half2Loop]
    by_cases h : 2 ≤ f
    · rw [if_pos h]
      refine ih (f * (1 / 2)) (e + 1) (by linarith) ?_
      rw [pow_succ] at h2
      linarith
    · rw [if_neg h]
      exact ⟨h1, by linarith⟩

theorem den_fuel_sufficient (f : ℚ) (hf : 0 < f) : 1 ≤ (2 : ℚ) ^ f.den * f := by
  have hnum : (1 : ℚ) ≤ f.num := by exact_mod_cast Rat.num_pos.mpr hf
  have hd0 : ((f.den : ℚ)) ≠ 0 := by
    have := f.den_pos
    positivity
  have hfd : f * f.den = f.num := by
    calc f * f.den = ((f.num : ℚ) / f.den) * f.den := by rw [Rat.num_div_den f]
    _ = f.num := div_mul_cancel₀ _ hd0
  have hle : (f.den : ℚ) ≤ 2 ^ f.den := by
    have h2 := Nat.lt_two_pow f.den
    exact_mod_cast h2.le
  calc (1 : ℚ) ≤ f * f.den := by rw [hfd]; exact hnum
  _ ≤ f * 2 ^ f.den := mul_le_mul_of_nonneg_left hle hf.le
  _ = 2 ^ f.den * f := by ring

theorem num_fuel_sufficient (f : ℚ) (hf : 0 < f) :
    f < 2 * (2 : ℚ) ^ f.num.natAbs := by
  have hnum : 0 < f.num := Rat.num_pos.mpr hf
  have hden1 : (1 : ℚ) ≤ f.den := by
    have := f.den_pos
    exact_mod_cast this
  have hfn : f ≤ (f.num : ℚ) := by
    conv_lhs => rw [← Rat.num_div_den f]
    exact div_le_self (by exact_mod_cast hnum.le) hden1
  have hcast : (f.num : ℚ) = (f.num.natAbs : ℚ) := by
    rw [Int.cast_natAbs]
    exact_mod_cast (abs_of_nonneg hnum.le).symm
  have h3 : (f.num.natAbs : ℚ) < 2 ^ f.num.natAbs := by
    exact_mod_cast Nat.lt_two_pow f.num.natAbs
  have h4 : (0 : ℚ) < 2 ^ f.num.natAbs := by positivity
  linarith [hcast ▸ hfn]

theorem normalizePair_spec (f : ℚ) (e : ℤ) (hf : 0 < f) :
    1 ≤ (free.normalizePair f e).1 ∧ (free.normalizePair f e).1 < 2 ∧
      (free.normalizePair f e).1 * 2 ^ (free.normalizePair f e).2 = f * 2 ^ e := by
  have hfuel := den_fuel_sufficient f hf
  have hnorm := mul2Loop_norm f.den f e hf hfuel
  have hpos := mul2Loop_pos f.den f e hf
  have hinv := mul2Loop_invariant f.den f e
  set p := free.mul2Loop f.den f e with hp
  have hfuel2 := num_fuel_sufficient p.1 hpos
  have hhalf := half2Loop_norm p.1.num.natAbs p.1 p.2 hnorm.1 hfuel2
  have hinv2 := half2Loop_invariant p.1.num.natAbs p.1 p.2
  have heq : free.normalizePair f e = free.half2Loop p.1.num.natAbs p.1 p.2 := rfl
  rw [heq]
  exact ⟨hhalf.1, hhalf.2, by rw [hinv2, hinv]⟩

/-! Branch lemmas for `float2bin` and field-splitting lemmas for
`bin2float`. -/

theorem float2bin_nan (w neb : ℕ) (hn : free.n_exp_bits w = .ok neb) :
    free.float2bin .nan w = .ok (false :: List.replicate (w - 1) true) := by
  unfold free.float2bin
  rw [hn]
  rfl

theorem float2bin_inf (w neb : ℕ) (s : Bool) (hn : free.n_exp_bits w = .ok neb) :
    free.float2bin (.inf s) w
      = .ok (s :: (List.replicate neb true
          ++ List.replicate ((w : ℤ) - neb - 1).toNat false)) := by
  unfold free.float2bin
  rw [hn]
  rfl

theorem float2bin_zero (w neb : ℕ) (hn : free.n_exp_bits w = .ok neb) :
    free.float2bin (.fin 0) w = .ok (List.replicate w false) := by
  unfold free.float2bin
  rw [hn]
  simp [Except.bind]

theorem float2bin_fin_sat (w neb : ℕ) (q : ℚ) (hn : free.n_exp_bits w = .ok neb)
    (hq : ¬ (q = 0))
    (hsat : ((2 : ℤ) ^ neb - 1)
      ≤ (free.normalizePair (if q < 0 then -q else q) (((2 : ℤ) ^ neb - 1) / 2)).2) :
    free.float2bin (.fin q) w
      = .ok (decide (q < 0) :: (List.replicate neb true
          ++ List.replicate ((w : ℤ) - neb - 1).toNat false)) := by
  unfold free.float2bin
  rw [hn]
  simp only [Except.bind]
  rw [if_neg hq, if_pos hsat]

theorem take_replicate_append {α : Type} (n : ℕ) (a : α) (B : List α) :
    (List.replicate n a ++ B).take n = List.replicate n a := by
  have h := List.take_left (List.replicate n a) B
  rwa [List.length_replicate] at h

theorem drop_replicate_append {α : Type} (n : ℕ) (a : α) (B : List α) :
    (List.replicate n a ++ B).drop n = B := by
  have h := List.drop_left (List.replicate n a) B
  rwa [List.length_replicate] at h

/-- Decoding the all-ones-exponent, all-zero-mantissa pattern of width `w`
gives infinity carrying the sign bit. -/
theorem bin2float_sat_pattern (w neb : ℕ) (s : Bool)
    (hn : free.n_exp_bits w = .ok neb) (hw : neb + 2 ≤ w) :
    free.bin2float (s :: (List.replicate neb true
        ++ List.replicate (w - neb - 1) false)) = .ok (.inf s) := by
  have hlen : (s :: (List.replicate neb true
      ++ List.replicate (w - neb - 1) false)).length = w := by
    simp only [List.length_cons, List.length_append, List.length_replicate]
    omega
  unfold free.bin2float
  rw [hlen, hn]
  simp only [Except.bind, List.drop_one, List.tail_cons, List.drop_succ_cons,
    List.drop_zero, take_replicate_append, drop_replicate_append, List.headD_cons]
  rw [if_neg (show ¬ (false ∈ List.replicate neb true) from by
    simp [List.mem_replicate])]
  rw [if_neg (show ¬ (true ∈ List.replicate (w - neb - 1) false) from by
    simp [List.mem_replicate])]
  cases s <;> rfl

/-- Decoding the sign-0, all-ones pattern of width `w` gives NaN. -/
theorem bin2float_nan_pattern (w neb : ℕ)
    (hn : free.n_exp_bits w = .ok neb) (hw : neb + 2 ≤ w) :
    free.bin2float (false :: List.replicate (w - 1) true) = .ok .nan := by
  have hlen : (false :: List.replicate (w - 1) true).length = w := by
    have := n_exp_bits_ok_bounds w neb hn
    simp only [List.length_cons, List.length_replicate]
    omega
  unfold free.bin2float
  rw [hlen, hn]
  simp only [Except.bind, List.drop_one, List.tail_cons, List.drop_succ_cons,
    List.drop_zero, Nat.sub_zero, List.headD_cons, List.take_replicate,
    List.drop_replicate, Bool.false_eq_true, if_false]
  rw [if_neg (show ¬ (false ∈ List.replicate (min neb (w - 1)) true) from by
    simp [List.mem_replicate])]
  rw [if_pos (List.mem_replicate.mpr ⟨by omega, rfl⟩)]

/-! Length lemmas: every successful encode has exactly the requested
length. -/

theorem fill_bits_ok_le (b : List Bool) (n : ℤ) (bit : Bool) (r : List Bool)
    (h : free.fill_bits b n bit = .ok r) : (b.length : ℤ) ≤ n := by
  unfold free.fill_bits at h
  by_cases hn : n - (b.length : ℤ) < 0
  · rw [if_pos hn] at h
    cases h
  · omega

theorem uint2bin_ok_length (i : ℤ) (w : ℕ) (b : List Bool)
    (h : free.uint2bin i w = .ok b) : b.length = w := by
  unfold free.uint2bin at h
  by_cases h0 : i < 0
  · rw [if_pos h0] at h
    cases h
  · rw [if_neg h0] at h
    have h1 := fill_bits_ok_length _ _ _ _ h
    have h2 := fill_bits_ok_le _ _ _ _ h
    omega

theorem int2bin_ok_length (i : ℤ) (w : ℕ) (b : List Bool)
    (h : free.int2bin i w = .ok b) : b.length = w := by
  have hstep : free.int2bin i w
      = (free.fill_bits (free.dec2bin (if i < 0 then (-i - 1).toNat else i.toNat)
          (decide (i < 0))) ((w : ℤ) - 1) (decide (i < 0))).bind fun body =>
        Except.ok (decide (i < 0) :: body) := rfl
  rw [hstep] at h
  cases hf : free.fill_bits (free.dec2bin (if i < 0 then (-i - 1).toNat else i.toNat)
      (decide (i < 0))) ((w : ℤ) - 1) (decide (i < 0)) with
  | error e =>
    rw [hf] at h
    cases h
  | ok body =>
    rw [hf] at h
    cases h
    have h1 := fill_bits_ok_length _ _ _ _ hf
    have h2 := fill_bits_ok_le _ _ _ _ hf
    simp only [List.length_cons]
    omega

theorem bool2bin_ok_length (x : Bool) (w : ℕ) (b : List Bool)
    (h : free.bool2bin x w = .ok b) : b.length = w := by
  unfold free.bool2bin at h
  have h1 := fill_bits_ok_length _ _ _ _ h
  have h2 := fill_bits_ok_le _ _ _ _ h
  omega

theorem char2bin_ok_length (c : ℕ) (b : List Bool)
    (h : free.char2bin c = .ok b) : b.length = 8 ∨ b.length = 32 := by
  unfold free.char2bin at h
  by_cases hc : c < 256
  · rw [if_pos hc] at h
    have h1 := fill_bits_ok_length _ _ _ _ h
    have h2 := fill_bits_ok_le _ _ _ _ h
    left
    omega
  · rw [if_neg hc] at h
    have h1 := fill_bits_ok_length _ _ _ _ h
    have h2 := fill_bits_ok_le _ _ _ _ h
    right
    omega

theorem float2bin_ok_length (x : FloatVal) (w : ℕ) (b : List Bool)
    (h : free.float2bin x w = .ok b) : b.length = w := by
  cases hn : free.n_exp_bits w with
  | error e =>
    unfold free.float2bin at h
    rw [hn] at h
    cases h
  | ok neb =>
    have hbounds := n_exp_bits_ok_bounds w neb hn
    cases x with
    | nan =>
      unfold free.float2bin at h
      rw [hn] at h
      simp only [Except.bind] at h
      cases h
      simp only [List.length_cons, List.length_replicate]
      omega
    | inf s =>
      unfold free.float2bin at h
      rw [hn] at h
      simp only [Except.bind] at h
      cases h
      simp only [List.length_cons, List.length_append, List.length_replicate]
      omega
    | fin q =>
      unfold free.float2bin at h
      rw [hn] at h
      simp only [Except.bind] at h
      by_cases hq : q = 0
      · rw [if_pos hq] at h
        cases h
        simp
      · rw [if_neg hq] at h
        by_cases hsat : ((2 : ℤ) ^ neb - 1)
            ≤ (free.normalizePair (if q < 0 then -q else q) (((2 : ℤ) ^ neb - 1) / 2)).2
        · rw [if_pos hsat] at h
          cases h
          simp only [List.length_cons, List.length_append, List.length_replicate]
          omega
        · rw [if_neg hsat] at h
          cases hf1 : free.fill_bits
              (free.dec2bin (if (free.normalizePair (if q < 0 then -q else q)
                  (((2 : ℤ) ^ neb - 1) / 2)).2 ≤ 0 then 0
                else (free.normalizePair (if q < 0 then -q else q)
                  (((2 : ℤ) ^ neb - 1) / 2)).2).toNat false) ((neb : ℕ) : ℤ) false with
          | error e =>
            rw [hf1] at h
            cases h
          | ok eb =>
            rw [hf1] at h
            cases hf2 : free.fill_bits
                ((if (free.normalizePair (if q < 0 then -q else q)
                      (((2 : ℤ) ^ neb - 1) / 2)).2 ≤ 0 ∧
                    0 ≤ (w : ℤ) - neb - 1 + (free.normalizePair (if q < 0 then -q else q)
                      (((2 : ℤ) ^ neb - 1) / 2)).2 - 1 then [true] else []) ++
                  free.extractBits ((free.normalizePair (if q < 0 then -q else q)
                      (((2 : ℤ) ^ neb - 1) / 2)).1 + (1 / 2) ^ ((w : ℤ) - neb - 1 + 1) - 1)
                    (if (free.normalizePair (if q < 0 then -q else q)
                        (((2 : ℤ) ^ neb - 1) / 2)).2 ≤ 0 then
                      (w : ℤ) - neb - 1 + (free.normalizePair (if q < 0 then -q else q)
                        (((2 : ℤ) ^ neb - 1) / 2)).2 - 1
                    else (w : ℤ) - neb - 1).toNat) ((w : ℤ) - neb - 1) false with
            | error e =>
              rw [hf2] at h
              cases h
            | ok mb =>
              rw [hf2] at h
              cases h
              have h1 := fill_bits_ok_length _ _ _ _ hf1
              have h2 := fill_bits_ok_le _ _ _ _ hf1
              have h3 := fill_bits_ok_length _ _ _ _ hf2
              have h4 := fill_bits_ok_le _ _ _ _ hf2
              simp only [List.length_cons, List.length_append]
              omega

/-!
Claim theorems.
-/

/-- C1: the exponent-width growth law reproduces the IEEE-754 known points
(`n_exp_bits 16 = 5`, `n_exp_bits 32 = 8`, `n_exp_bits 64 = 11`) and for every
width of at least 8 bits the bias is `2 ^ (n_exp_bits - 1) - 1`; in particular
`exp_bias 32 = 127`. -/
theorem C1_exponent_growth_and_bias :
    free.n_exp_bits 16 = .ok 5 ∧ free.n_exp_bits 32 = .ok 8 ∧
    free.n_exp_bits 64 = .ok 11 ∧ free.exp_bias 32 = .ok 127 ∧
    ∀ n neb : ℕ, 8 ≤ n → free.n_exp_bits n = .ok neb →
      free.exp_bias n = .ok (2 ^ (neb - 1) - 1) := by
  refine ⟨by decide, by decide, by decide, by decide, ?_⟩
  intro n neb hn h
  unfold free.exp_bias
  rw [h]
  rfl

/-- Witness for C1 at width 64: the bias is `2 ^ (11 - 1) - 1 = 1023`. -/
theorem C1_witness : free.exp_bias 64 = .ok (2 ^ (11 - 1) - 1) :=
  C1_exponent_growth_and_bias.2.2.2.2 64 11 (by norm_num) (by decide)

/-- C3 counterexample: at 32 bits the code returns `n_exp_bits 32 = 8` and
`n_significand_bits 32 = 24` (the count includes the implicit leading bit), so
`exponent_bits + significand_bits + 1` is 33, not the total width 32. -/
theorem C3_counterexample :
    free.n_exp_bits 32 = .ok 8 ∧ free.n_significand_bits 32 = .ok 24 ∧
    (8 : ℤ) + 24 + 1 ≠ 32 :=
  ⟨by decide, by decide, by decide⟩

/-- C3 as amended: for every width of at least 8 bits the derived fields
satisfy `n_exp_bits + n_significand_bits = total_bits` (without the extra 1:
the code's significand count includes the implicit leading bit),
`exp_bias = max_exp`, `min_exp = 1 - exp_bias`, and
`min_exp subnorm = min_exp - (n_significand_bits - 1)`. -/
theorem C3_invariants_amended :
    ∀ (t neb : ℕ) (sig b : ℤ), 8 ≤ t →
      free.n_exp_bits t = .ok neb → free.n_significand_bits t = .ok sig →
      free.exp_bias t = .ok b →
      ((neb : ℤ) + sig = t) ∧ free.max_exp t = .ok b ∧
        free.min_exp t false = .ok (1 - b) ∧
        free.min_exp t true = .ok (1 - b - (sig - 1)) := by
  intro t neb sig b ht hn hsig hb
  have hs : sig = (t : ℤ) - neb := by
    unfold free.n_significand_bits at hsig
    rw [hn] at hsig
    simp only [Except.bind] at hsig
    cases hsig
    rfl
  have hbounds := n_exp_bits_ok_bounds t neb hn
  refine ⟨by omega, hb, ?_, ?_⟩
  · unfold free.min_exp
    rw [hb]
    simp only [Except.bind, Bool.false_eq_true, if_false]
    congr 1
    ring
  · unfold free.min_exp
    rw [hb]
    simp only [Except.bind, if_true]
    rw [hsig]
    simp only [Except.bind]
    congr 1
    ring

/-- Witness for C3 (amended) at width 32. -/
theorem C3_witness :
    (((8 : ℕ) : ℤ) + 24 = 32) ∧ free.max_exp 32 = .ok 127 ∧
      free.min_exp 32 false = .ok (1 - 127) ∧
      free.min_exp 32 true = .ok (1 - 127 - (24 - 1)) :=
  C3_invariants_amended 32 8 24 127 (by norm_num) (by decide) (by decide) (by decide)

/-- C4: decode inverts encode — for every width and every representable
integer, `bin2uint (uint2bin i w) = i` and `bin2int (int2bin i w) = i` (the
claim's widths 8, 16, 32, 64, 128 are instances). -/
theorem C4_roundtrip :
    ∀ (w : ℕ) (i : ℤ),
      (0 ≤ i → i < 2 ^ w →
        ∃ b, free.uint2bin i w = .ok b ∧ (free.bin2uint b : ℤ) = i) ∧
      (1 ≤ w → free.min_int w ≤ i → i ≤ free.max_int w →
        ∃ b, free.int2bin i w = .ok b ∧ free.bin2int b = i) := by
  intro w i
  constructor
  · intro h0 h1
    have hpc := two_pow_cast w
    refine ⟨natToBits i.toNat w, uint2bin_ok_natToBits i w h0 h1, ?_⟩
    rw [bin2uint_natToBits i.toNat w (by omega)]
    omega
  · intro hw hlo hhi
    have hpc := two_pow_cast (w - 1)
    unfold free.min_int free.max_uint at hlo
    unfold free.max_int free.max_uint at hhi
    have hlo2 : -((2 : ℤ) ^ (w - 1)) ≤ i := by omega
    have hhi2 : i < (2 : ℤ) ^ (w - 1) := by omega
    exact ⟨natToBits (i % (2 ^ w : ℤ)).toNat w, int2bin_ok_natToBits i w hw hlo2 hhi2,
      bin2int_of_int2bin i w hw hlo2 hhi2 _ (int2bin_ok_natToBits i w hw hlo2 hhi2)⟩

/-- Witness for C4 at `uint2bin 200 8`. -/
theorem C4_witness : ∃ b, free.uint2bin 200 8 = .ok b ∧ (free.bin2uint b : ℤ) = 200 :=
  (C4_roundtrip 8 200).1 (by norm_num) (by norm_num)

/-- C6: unsigned encode fails with SignError exactly for negative values,
with WidthError exactly for nonnegative values needing more than the
requested bits, and otherwise returns the zero-padded MSB-first magnitude;
`uint2bin (-1) 8` is a SignError and `int2bin 200 8` a WidthError. -/
theorem C6_unsigned_errors :
    (∀ (i : ℤ) (w : ℕ),
      (free.uint2bin i w = .error .signError ↔ i < 0) ∧
      (free.uint2bin i w = .error .widthError ↔ 0 ≤ i ∧ (2 : ℤ) ^ w ≤ i) ∧
      (0 ≤ i → i < 2 ^ w →
        free.uint2bin i w
          = .ok (List.replicate (w - (free.dec2bin i.toNat false).length) false
              ++ free.dec2bin i.toNat false))) ∧
    free.uint2bin (-1) 8 = .error .signError ∧
    free.int2bin 200 8 = .error .widthError :=
  ⟨fun i w => ⟨uint2bin_signError_iff i w, uint2bin_widthError_iff i w,
    fun h0 h1 => uint2bin_ok_fill i w h0 h1⟩, by decide, by decide⟩

/-- Witness for C6: `uint2bin 5 8` succeeds with the zero-padded digits. -/
theorem C6_witness :
    free.uint2bin 5 8
      = .ok (List.replicate (8 - (free.dec2bin (5 : ℤ).toNat false).length) false
          ++ free.dec2bin (5 : ℤ).toNat false) :=
  ((C6_unsigned_errors.1 5 8).2.2) (by norm_num) (by norm_num)

/-- C9: every successful encode returns a bit string whose length is the
requested width, on every branch of every codec; `char2bin` returns 8 or 32
bits. -/
theorem C9_length_invariant :
    ∀ w : ℕ,
      (∀ (i : ℤ) (b : List Bool), free.uint2bin i w = .ok b → b.length = w) ∧
      (∀ (i : ℤ) (b : List Bool), free.int2bin i w = .ok b → b.length = w) ∧
      (∀ (x : Bool) (b : List Bool), free.bool2bin x w = .ok b → b.length = w) ∧
      (∀ (x : FloatVal) (b : List Bool), free.float2bin x w = .ok b → b.length = w) ∧
      (∀ (c : ℕ) (b : List Bool), free.char2bin c = .ok b →
        b.length = 8 ∨ b.length = 32) :=
  fun w =>
    ⟨fun i b h => uint2bin_ok_length i w b h,
     fun i b h => int2bin_ok_length i w b h,
     fun x b h => bool2bin_ok_length x w b h,
     fun x b h => float2bin_ok_length x w b h,
     fun c b h => char2bin_ok_length c b h⟩

/-- Witness for C9: the encoding of 5 at width 8 has length 8. -/
theorem C9_witness :
    ([false, false, false, false, false, true, false, true] : List Bool).length = 8 :=
  (C9_length_invariant 8).1 5 [false, false, false, false, false, true, false, true]
    (by decide)

/-- C10: the 8-bit floor applies only to the floating-point side — for any
width of at least 1 the integer and boolean encoders succeed on in-range
values, while below 8 bits `n_exp_bits` and the float codecs built on it
fail with WidthError. -/
theorem C10_integer_widths_below_8 :
    ∀ w : ℕ, 1 ≤ w →
      (∀ i : ℤ, 0 ≤ i → i < 2 ^ w → (free.uint2bin i w).isOk) ∧
      (∀ i : ℤ, free.min_int w ≤ i → i ≤ free.max_int w → (free.int2bin i w).isOk) ∧
      (∀ x : Bool, (free.bool2bin x w).isOk) ∧
      (w < 8 →
        free.n_exp_bits w = .error .widthError ∧
        (∀ x : FloatVal, free.float2bin x w = .error .widthError) ∧
        (∀ b : List Bool, b.length = w → free.bin2float b = .error .widthError)) := by
  intro w hw
  refine ⟨?_, ?_, ?_, ?_⟩
  · intro i h0 h1
    rw [uint2bin_ok_natToBits i w h0 h1]
    rfl
  · intro i hlo hhi
    have hpc := two_pow_cast (w - 1)
    unfold free.min_int free.max_uint at hlo
    unfold free.max_int free.max_uint at hhi
    rw [int2bin_ok_natToBits i w hw (by omega) (by omega)]
    rfl
  · intro x
    unfold free.bool2bin
    rw [fill_bits_eq_ok [x] (w : ℤ) false (by
      simp only [List.length_singleton]
      omega)]
    rfl
  · intro hw8
    refine ⟨n_exp_bits_error w hw8, ?_, ?_⟩
    · intro x
      unfold free.float2bin
      rw [n_exp_bits_error w hw8]
      rfl
    · intro b hb
      unfold free.bin2float
      rw [hb, n_exp_bits_error w hw8]
      rfl

/-- Witness for C10 at width 3. -/
theorem C10_witness : (free.uint2bin 5 3).isOk :=
  ((C10_integer_widths_below_8 3 (by norm_num)).1 5 (by norm_num) (by norm_num))

/-- C7: for every accepted width, encoding NaN gives sign 0, an all-ones
exponent field and an all-ones (hence nonzero) mantissa field, and decoding
that pattern gives NaN back. -/
theorem C7_nan_roundtrip :
    ∀ w neb : ℕ, free.n_exp_bits w = .ok neb →
      free.float2bin .nan w
          = .ok (false :: (List.replicate neb true
              ++ List.replicate (w - 1 - neb) true)) ∧
        1 ≤ w - 1 - neb ∧
        free.bin2float (false :: (List.replicate neb true
            ++ List.replicate (w - 1 - neb) true)) = .ok .nan := by
  intro w neb hn
  have hb := n_exp_bits_ok_bounds w neb hn
  have hsplit : List.replicate (w - 1) true
      = List.replicate neb true ++ List.replicate (w - 1 - neb) true := by
    rw [← List.replicate_add]
    congr 1
    omega
  refine ⟨?_, by omega, ?_⟩
  · rw [float2bin_nan w neb hn, hsplit]
  · rw [← hsplit]
    exact bin2float_nan_pattern w neb hn (by omega)

/-- Witness for C7 at width 64: `bin2float (float2bin NaN 64)` is NaN. -/
theorem C7_witness :
    free.float2bin .nan 64
        = .ok (false :: (List.replicate 11 true ++ List.replicate (64 - 1 - 11) true)) ∧
      1 ≤ 64 - 1 - 11 ∧
      free.bin2float (false :: (List.replicate 11 true
          ++ List.replicate (64 - 1 - 11) true)) = .ok .nan :=
  C7_nan_roundtrip 64 11 (by decide)

/-- C2 as amended: a finite value whose magnitude is at least
`2 ^ (exp_bias w + 1)` — rather than merely above `max_float w` — saturates
to the all-ones-exponent, all-zero-mantissa pattern with its sign, and
decoding that pattern gives infinity with the same sign.  (Magnitudes
strictly between `max_float w` and `2 ^ (exp_bias w + 1)` need not saturate;
see the counterexample.) -/
theorem C2_saturation_amended :
    ∀ (w neb : ℕ) (bias : ℤ) (q : ℚ),
      free.n_exp_bits w = .ok neb → free.exp_bias w = .ok bias →
      (2 : ℚ) ^ (bias + 1) ≤ |q| →
      free.float2bin (.fin q) w
          = .ok (decide (q < 0) :: (List.replicate neb true
              ++ List.replicate (w - neb - 1) false)) ∧
        free.bin2float (decide (q < 0) :: (List.replicate neb true
            ++ List.replicate (w - neb - 1) false)) = .ok (.inf (decide (q < 0))) := by
  intro w neb bias q hn hbias hq
  have hb := n_exp_bits_ok_bounds w neb hn
  have hbias2 : bias = 2 ^ (neb - 1) - 1 := by
    unfold free.exp_bias at hbias
    rw [hn] at hbias
    simp only [Except.bind] at hbias
    cases hbias
    rfl
  have hk : (2 : ℤ) ^ neb = 2 * 2 ^ (neb - 1) := by
    conv_lhs => rw [show neb = (neb - 1) + 1 from by omega]
    rw [pow_succ]
    ring
  have hkpos : (0 : ℤ) < 2 ^ (neb - 1) := by positivity
  have he0 : ((2 : ℤ) ^ neb - 1) / 2 = bias := by
    rw [hbias2]
    omega
  have hqpos : (0 : ℚ) < |q| := lt_of_lt_of_le (by positivity) hq
  have hq0 : ¬ (q = 0) := fun hc => by
    rw [hc] at hqpos
    simp at hqpos
  have hf0 : (if q < 0 then -q else q) = |q| := by
    rcases lt_or_ge q 0 with h | h
    · rw [if_pos h, abs_of_neg h]
    · rw [if_neg (not_lt.2 h), abs_of_nonneg h]
  obtain ⟨hp1, hp2, hpinv⟩ := normalizePair_spec (if q < 0 then -q else q)
    (((2 : ℤ) ^ neb - 1) / 2) (by rw [hf0]; exact hqpos)
  set p := free.normalizePair (if q < 0 then -q else q) (((2 : ℤ) ^ neb - 1) / 2)
    with hp
  have hval : p.1 * 2 ^ p.2 = |q| * 2 ^ bias := by
    rw [hpinv, hf0, he0]
  have hge : (2 : ℚ) ^ (2 * bias + 1) ≤ p.1 * 2 ^ p.2 := by
    rw [hval]
    calc (2 : ℚ) ^ (2 * bias + 1) = 2 ^ (bias + 1) * 2 ^ bias := by
          rw [← zpow_add₀ (by norm_num : (2 : ℚ) ≠ 0)]
          congr 1
          ring
    _ ≤ |q| * 2 ^ bias :=
          mul_le_mul_of_nonneg_right hq (le_of_lt (zpow_pos (by norm_num) bias))
  have hlt : (2 : ℚ) ^ (2 * bias + 1) < 2 ^ (p.2 + 1) := by
    calc (2 : ℚ) ^ (2 * bias + 1) ≤ p.1 * 2 ^ p.2 := hge
    _ < 2 * 2 ^ p.2 := mul_lt_mul_of_pos_right hp2 (zpow_pos (by norm_num) p.2)
    _ = 2 ^ (p.2 + 1) := by
          rw [zpow_add_one₀ (by norm_num : (2 : ℚ) ≠ 0)]
          ring
  have hexp : 2 * bias + 1 < p.2 + 1 :=
    (zpow_lt_zpow_iff_right₀ (by norm_num : (1 : ℚ) < 2)).1 hlt
  have hsat : ((2 : ℤ) ^ neb - 1) ≤ p.2 := by
    rw [hbias2] at hexp
    omega
  have henc := float2bin_fin_sat w neb q hn hq0 (hp ▸ hsat)
  have htona : ((w : ℤ) - neb - 1).toNat = w - neb - 1 := by omega
  refine ⟨?_, bin2float_sat_pattern w neb (decide (q < 0)) hn (by omega)⟩
  rw [henc, htona]

/-- Witness for C2 (amended) at width 8 with the value 16. -/
theorem C2_witness :
    free.float2bin (.fin 16) 8
        = .ok (decide ((16 : ℚ) < 0) :: (List.replicate 3 true
            ++ List.replicate (8 - 3 - 1) false)) ∧
      free.bin2float (decide ((16 : ℚ) < 0) :: (List.replicate 3 true
          ++ List.replicate (8 - 3 - 1) false)) = .ok (.inf (decide ((16 : ℚ) < 0))) :=
  C2_saturation_amended 8 3 3 16 (by decide) (by decide) (by norm_num)

unseal Rat.mul Rat.add Rat.sub Rat.inv in
/-- C2 counterexample: at width 8 the largest finite value is
`max_float 8 = 15.5`, and `15.75 > 15.5`, yet `float2bin 15.75 8` does not
return the saturated pattern `0 111 0000` — it returns `0 110 1111`, the
largest finite encoding. -/
theorem C2_counterexample :
    free.max_float 8 = .ok (31 / 2) ∧ ((31 : ℚ) / 2) < 63 / 4 ∧
    free.float2bin (.fin (63 / 4)) 8
        = .ok [false, true, true, false, true, true, true, true] ∧
    [false, true, true, false, true, true, true, true]
      ≠ (false :: (List.replicate 3 true ++ List.replicate 4 false)) :=
  ⟨by decide, by norm_num, by decide, by decide⟩

unseal Rat.mul Rat.add Rat.sub Rat.inv in
/-- C5: the exactly representable values 0.5, 1.0, -2.0, 0.0 and -0.0 round
trip through the 32-bit float codec unchanged (in the model the two signed
zeros are the single rational 0, matching Python's value equality). -/
theorem C5_float_roundtrip_exact :
    (free.float2bin (.fin (1 / 2)) 32).bind free.bin2float = .ok (.fin (1 / 2)) ∧
    (free.float2bin (.fin 1) 32).bind free.bin2float = .ok (.fin 1) ∧
    (free.float2bin (.fin (-2)) 32).bind free.bin2float = .ok (.fin (-2)) ∧
    (free.float2bin (.fin 0) 32).bind free.bin2float = .ok (.fin 0) ∧
    (free.float2bin (.fin (-0)) 32).bind free.bin2float = .ok (.fin (-0)) :=
  ⟨by decide, by decide, by decide, by decide, by decide⟩

/-- The fixed-width signed packer agrees with the generalized codec at width
`w`, including the failure cases. -/
theorem val2bin_int_iff (w : ℕ) (hw : 1 ≤ w) (i : ℤ) (l : List Bool) :
    fixed.val2bin_int w i = some l ↔ free.int2bin i w = .ok l := by
  unfold fixed.val2bin_int
  by_cases h : -(2 ^ (w - 1) : ℤ) ≤ i ∧ i < 2 ^ (w - 1)
  · rw [if_pos h, int2bin_ok_natToBits i w hw h.1 h.2]
    constructor <;> (intro hh; cases hh; rfl)
  · rw [if_neg h, int2bin_widthError i w hw (by
      rcases not_and_or.1 h with h | h
      · left; omega
      · right; omega)]
    simp

/-- The fixed-width unsigned packer agrees with the generalized codec at
width `w`, including the failure cases. -/
theorem val2bin_uint_iff (w : ℕ) (i : ℤ) (l : List Bool) :
    fixed.val2bin_uint w i = some l ↔ free.uint2bin i w = .ok l := by
  unfold fixed.val2bin_uint
  by_cases h : 0 ≤ i ∧ i < 2 ^ w
  · rw [if_pos h, uint2bin_ok_natToBits i w h.1 h.2]
    constructor <;> (intro hh; cases hh; rfl)
  · rw [if_neg h]
    rcases not_and_or.1 h with h | h
    · rw [(uint2bin_signError_iff i w).2 (by omega)]
      simp
    · have hpos : (0 : ℤ) < 2 ^ w := by positivity
      rw [(uint2bin_widthError_iff i w).2 ⟨by omega, by omega⟩]
      simp

/-- C8 as amended: the fixed-width *integer* encoders produce exactly the
generalized codec's bit strings at widths 8, 16, 32 and 64 (success and
failure agree for every input); the *float* encoders do not agree for every
value — see the counterexample at NaN. -/
theorem C8_integer_agreement :
    ∀ (i : ℤ) (l : List Bool),
      (fixed.int2bin8 i = some l ↔ free.int2bin i 8 = .ok l) ∧
      (fixed.uint2bin8 i = some l ↔ free.uint2bin i 8 = .ok l) ∧
      (fixed.int2bin16 i = some l ↔ free.int2bin i 16 = .ok l) ∧
      (fixed.uint2bin16 i = some l ↔ free.uint2bin i 16 = .ok l) ∧
      (fixed.int2bin32 i = some l ↔ free.int2bin i 32 = .ok l) ∧
      (fixed.uint2bin32 i = some l ↔ free.uint2bin i 32 = .ok l) ∧
      (fixed.int2bin64 i = some l ↔ free.int2bin i 64 = .ok l) ∧
      (fixed.uint2bin64 i = some l ↔ free.uint2bin i 64 = .ok l) :=
  fun i l =>
    ⟨val2bin_int_iff 8 (by norm_num) i l, val2bin_uint_iff 8 i l,
     val2bin_int_iff 16 (by norm_num) i l, val2bin_uint_iff 16 i l,
     val2bin_int_iff 32 (by norm_num) i l, val2bin_uint_iff 32 i l,
     val2bin_int_iff 64 (by norm_num) i l, val2bin_uint_iff 64 i l⟩

/-- C8 counterexample: at NaN the native float packer emits the canonical
quiet-NaN pattern (mantissa `10…0`) while the generalized codec emits an
all-ones mantissa, so `float2bin64` and `float2bin · 64` differ. -/
theorem C8_counterexample :
    fixed.float2bin64 .nan
        = some (false :: (List.replicate 11 true ++ (true :: List.replicate 51 false))) ∧
    free.float2bin .nan 64 = .ok (false :: List.replicate 63 true) ∧
    (false :: (List.replicate 11 true ++ (true :: List.replicate 51 false)))
      ≠ (false :: List.replicate 63 true) :=
  ⟨rfl, by decide, by decide⟩
